import Mathlib

/-!
# gochen-iam authorization core — shallow embedding and verification

This file embeds, in Lean 4, the authorization core of the `gochen-iam`
repository and proves (or refutes) a fixed list of specification claims
about it.  Each definition mirrors one Go function of the repository:

* `auth/context.go` — request-context role/permission storage
  (`WithRoles`, `WithPermissions`, `GetRoles`, `GetPermissions`,
  `GetPermissionSet`);
* `middleware` permission checks (`HasAnyRole`, `HasPermission`) and the
  strict permission registry (`ValidateStrictPermissionRegistry`,
  `EnsureStrictPermissionRegistryLoaded`, `registerRequiredPermission`);
* `entity.Group` path maintenance (`SetParent`, `UpdatePath`,
  `IsAncestorOf`, `IsDescendantOf`), the group repository
  (`GetByID`, `FindChildren`, `FindAncestors`, `findDescendantsRecursive`)
  and the group service (`CreateGroup`, `validateGroupParentChange`);
* the user service (`GetAuthSnapshot`, `GetUserPermissions`,
  `CheckPermission`, `resolveEffectiveRolesAndPermissions`) over the role
  repository join (`RoleRepo.FindByUserID`);
* the menu service visibility filter (`evaluateMenuVisibility`,
  `filterMenuTreeRec`, `filterMenuTree`).

Go strings are modelled as Lean `String`; `strings.ToLower` /
`strings.EqualFold` are modelled by per-character lowering (they agree on
ASCII permission codes and role names), `strings.TrimSpace` by trimming
ASCII whitespace.  Go's `sort.Strings` (byte-wise lexicographic; UTF-8
byte order agrees with code-point order) is modelled by insertion sort
under `String` lexicographic order.  Go maps used as string sets are
modelled by their key lists, looked up by decidable equality.  Fallible
Go functions return `Except`; `errorx` codes become an enumeration.
-/

/-- `errorx` error codes used by the embedded functions. -/
inductive ErrCode where
  | validation
  | notFound
  | forbidden
  | internal
  | database
  | unauthorized
  deriving DecidableEq, Repr

/-- An `errorx` error: a code plus a human-readable reason. -/
structure ErrX where
  code : ErrCode
  msg : String
  deriving DecidableEq, Repr

/-- Per-character lowering, modelling `strings.ToLower` (ASCII-faithful). -/
def lowerStr (s : String) : String :=
  ⟨s.data.map Char.toLower⟩

/-- `strings.EqualFold` modelled as equality after lowering. -/
def eqFold (a b : String) : Bool :=
  lowerStr a == lowerStr b

/-- ASCII whitespace recognised by the `strings.TrimSpace` model. -/
def isGoSpace (c : Char) : Bool :=
  c == ' ' || c == '\t' || c == '\n' || c == '\r'

/-- `strings.TrimSpace` modelled on the character list (ASCII whitespace). -/
def trimStr (s : String) : String :=
  ⟨((s.data.dropWhile isGoSpace).reverse.dropWhile isGoSpace).reverse⟩

/-- Lexicographic comparison of character lists (by code point; UTF-8
byte order, which Go's `sort.Strings` uses, coincides with code-point
order). -/
def charListLeb : List Char → List Char → Bool
  | [], _ => true
  | _ :: _, [] => false
  | a :: as, b :: bs =>
    if a < b then true
    else if b < a then false
    else charListLeb as bs

/-- The lexicographic order on strings used by the `sort.Strings`
model. -/
def strLe (a b : String) : Prop :=
  charListLeb a.data b.data = true

instance : DecidableRel strLe :=
  fun a b => inferInstanceAs (Decidable (charListLeb a.data b.data = true))

/-- Lexicographic comparison is total. -/
theorem charListLeb_total (as bs : List Char) :
    charListLeb as bs = true ∨ charListLeb bs as = true := by
  induction as generalizing bs with
  | nil => exact Or.inl rfl
  | cons a as ih =>
    cases bs with
    | nil => exact Or.inr rfl
    | cons b bs =>
      rcases lt_trichotomy a b with h | h | h
      · left
        rw [charListLeb, if_pos h]
      · subst h
        rcases ih bs with h2 | h2
        · left
          rw [charListLeb, if_neg (lt_irrefl a), if_neg (lt_irrefl a)]
          exact h2
        · right
          rw [charListLeb, if_neg (lt_irrefl a), if_neg (lt_irrefl a)]
          exact h2
      · right
        rw [charListLeb, if_pos h]

/-- Lexicographic comparison is transitive. -/
theorem charListLeb_trans (as : List Char) : ∀ bs cs : List Char,
    charListLeb as bs = true → charListLeb bs cs = true →
    charListLeb as cs = true := by
  induction as with
  | nil => intro bs cs _ _; rfl
  | cons a as ih =>
    intro bs cs h1 h2
    cases bs with
    | nil => rw [charListLeb] at h1; cases h1
    | cons b bs =>
      cases cs with
      | nil => rw [charListLeb] at h2; cases h2
      | cons c cs =>
        rw [charListLeb] at h1 h2 ⊢
        by_cases hab : a < b
        · rw [if_pos hab] at h1
          by_cases hbc : b < c
          · rw [if_pos (lt_trans hab hbc)]
          · rw [if_neg hbc] at h2
            by_cases hcb : c < b
            · rw [if_pos hcb] at h2
              cases h2
            · obtain rfl : b = c := le_antisymm (not_lt.mp hcb) (not_lt.mp hbc)
              rw [if_pos hab]
        · rw [if_neg hab] at h1
          by_cases hba : b < a
          · rw [if_pos hba] at h1
            cases h1
          · obtain rfl : a = b := le_antisymm (not_lt.mp hba) (not_lt.mp hab)
            rw [if_neg hba] at h1
            by_cases hac : a < c
            · rw [if_pos hac]
            · rw [if_neg hac] at h2 ⊢
              by_cases hca : c < a
              · rw [if_pos hca] at h2
                cases h2
              · rw [if_neg hca] at h2 ⊢
                exact ih bs cs h1 h2

/-- Lexicographic comparison is antisymmetric. -/
theorem charListLeb_antisymm (as : List Char) : ∀ bs : List Char,
    charListLeb as bs = true → charListLeb bs as = true → as = bs := by
  induction as with
  | nil =>
    intro bs _ h2
    cases bs with
    | nil => rfl
    | cons b bs => rw [charListLeb] at h2; cases h2
  | cons a as ih =>
    intro bs h1 h2
    cases bs with
    | nil => rw [charListLeb] at h1; cases h1
    | cons b bs =>
      rw [charListLeb] at h1 h2
      by_cases hab : a < b
      · rw [if_neg (lt_asymm hab), if_pos hab] at h2
        cases h2
      · by_cases hba : b < a
        · rw [if_neg hab, if_pos hba] at h1
          cases h1
        · obtain rfl : a = b := le_antisymm (not_lt.mp hba) (not_lt.mp hab)
          rw [if_neg hab, if_neg hba] at h1 h2
          rw [ih bs h1 h2]

instance : IsTotal String strLe :=
  ⟨fun a b => charListLeb_total a.data b.data⟩

instance : IsTrans String strLe :=
  ⟨fun a b c h1 h2 => charListLeb_trans a.data b.data c.data h1 h2⟩

instance : IsAntisymm String strLe :=
  ⟨fun a b h1 h2 => by
    cases a with
    | mk d1 =>
      cases b with
      | mk d2 => exact congrArg String.mk (charListLeb_antisymm d1 d2 h1 h2)⟩

/-- `sort.Strings`: sort a string list lexicographically. -/
def sortStrings (l : List String) : List String :=
  l.insertionSort strLe

/-! ## Request context (`auth/context.go`)

A Go `httpx.IRequestContext` may be `nil`; a non-nil context carries the
three context values written by `WithRoles` / `WithPermissions`.  Absent
list values read back as `nil`, which the middleware treats exactly like
an empty list, so they are modelled as `[]`; the permission-set map is
`nil` or present, modelled as `Option` of its key list. -/

/-- The auth-relevant values of a non-nil request context. -/
structure RequestContext where
  roles : List String
  permissions : List String
  permSet : Option (List String)
  deriving DecidableEq, Repr

/-- A fresh request context with no auth values injected. -/
def emptyCtx : RequestContext := ⟨[], [], none⟩

/-- `auth.GetRoles`: `nil` context or absent value reads as no roles. -/
def getRoles : Option RequestContext → List String
  | none => []
  | some c => c.roles

/-- `auth.GetPermissions`. -/
def getPermissions : Option RequestContext → List String
  | none => []
  | some c => c.permissions

/-- `auth.GetPermissionSet`: `nil` when never injected. -/
def getPermissionSet : Option RequestContext → Option (List String)
  | none => none
  | some c => c.permSet

/-- `auth.WithRoles`: no-op on a nil context or an empty role list. -/
def withRoles (ctx : Option RequestContext) (roles : List String) :
    Option RequestContext :=
  match ctx with
  | none => none
  | some c => if roles.isEmpty then some c else some { c with roles := roles }

/-- Key list of the permission-set map built by `auth.WithPermissions`:
empty strings are skipped and keys are lowered. -/
def mkPermSet (permissions : List String) : List String :=
  (permissions.filter (fun p => !(p == ""))).map lowerStr

/-- `auth.WithPermissions`: no-op on a nil context or an empty list;
otherwise stores the raw list and the lowered key set. -/
def withPermissions (ctx : Option RequestContext) (permissions : List String) :
    Option RequestContext :=
  match ctx with
  | none => none
  | some c =>
    if permissions.isEmpty then some c
    else some { c with
      permissions := permissions
      permSet := some (mkPermSet permissions) }

/-! ## Permission middleware (`middleware`, part of the unnamed files) -/

/-- `middleware.HasAnyRole`: true on an empty requirement list, false on a
context without roles, otherwise any case-insensitive match. -/
def hasAnyRole (ctx : Option RequestContext) (required : List String) : Bool :=
  if required.isEmpty then true
  else
    let roles := getRoles ctx
    if roles.isEmpty then false
    else required.any (fun need => roles.any (fun r => eqFold r need))

/-- `middleware.HasPermission`: empty code accepted outright; the
`system_admin` role overrides; otherwise O(1) set lookup when the lowered
key set was injected, else a linear case-insensitive scan. -/
def hasPermission (ctx : Option RequestContext) (permission : String) : Bool :=
  if permission == "" then true
  else if hasAnyRole ctx ["system_admin"] then true
  else
    match getPermissionSet ctx with
    | some set => set.contains (lowerStr permission)
    | none =>
      let perms := getPermissions ctx
      if perms.isEmpty then false
      else perms.any (fun p => eqFold p permission)

/-! ## Strict permission registry (`middleware`)

The process-wide registry is a map from permission code to its
declaration-site metadata, plus the `strictRegistryValidated` flag.  Only
the key set and the flag are observable by the embedded operations, so
the state is the key list plus the flag. -/

/-- The mutable registry state: registered permission codes (map keys)
and the once-only validation flag. -/
structure RegistryState where
  perms : List String
  validated : Bool
  deriving DecidableEq, Repr

/-- `requiredPermissionsCount`: the number of registered codes. -/
def requiredPermissionsCount (s : RegistryState) : Nat :=
  s.perms.length

/-- `registerRequiredPermission`: skip empty codes; the map dedupes by
code (appending metadata to an existing key adds no new key). -/
def registerRequiredPermission (s : RegistryState) (permission : String) :
    RegistryState :=
  if permission == "" then s
  else if permission ∈ s.perms then s
  else { s with perms := s.perms ++ [permission] }

/-- `ValidateStrictPermissionRegistry`: Internal error when the registry
holds zero codes. -/
def validateStrictPermissionRegistry (s : RegistryState) : Except ErrX Unit :=
  if requiredPermissionsCount s = 0 then
    .error ⟨.internal, "required permissions registry 为空（尚未完成权限字典注册）"⟩
  else .ok ()

/-- `EnsureStrictPermissionRegistryLoaded`: short-circuit once validated;
only a successful validation is cached. -/
def ensureStrictPermissionRegistryLoaded (s : RegistryState) :
    Except ErrX Unit × RegistryState :=
  if s.validated then (.ok (), s)
  else
    match validateStrictPermissionRegistry s with
    | .error e => (.error e, s)
    | .ok () => (.ok (), { s with validated := true })

/-! ## Roles, users and effective permission resolution

`entity.Role` / `entity.User` records restricted to the fields the
embedded services read.  Role assignments (`user_roles` rows) are pairs.
`RoleRepo.FindByUserID` is the SQL join
`roles INNER JOIN user_roles ON roles.id = user_roles.role_id
 WHERE user_roles.user_id = ? AND roles.deleted_at IS NULL`. -/

/-- An `entity.Role` row: id, name, status, permission codes and the
soft-deletion marker (`deleted_at IS NOT NULL`). -/
structure RoleRec where
  id : Int
  name : String
  status : String
  permissions : List String
  deleted : Bool
  deriving DecidableEq, Repr

/-- An `entity.User` value restricted to the fields the embedded
operations read: table columns plus the `Roles` many-to-many
association, which is populated only when a query preloads it
(`UserRepo.GetByID` does not, so entities it returns carry `roles = []`;
table rows model no association either). -/
structure UserRec where
  id : Int
  username : String
  status : String
  deleted : Bool
  roles : List RoleRec
  deriving DecidableEq, Repr

/-- The persistence collaborator: user rows, role rows and `user_roles`
assignment pairs `(user_id, role_id)`. -/
structure IamDb where
  users : List UserRec
  roles : List RoleRec
  userRoles : List (Int × Int)
  deriving DecidableEq, Repr

/-- `RoleRepo.FindByUserID`: the join keeps one role row per matching
assignment row and filters soft-deleted roles. -/
def findRolesByUserID (db : IamDb) (userID : Int) : List RoleRec :=
  (db.userRoles.filter (fun p => p.1 == userID)).flatMap
    (fun p => db.roles.filter (fun r => r.id == p.2 && !r.deleted))

/-- The permission-accumulation inner loop of
`resolveEffectiveRolesAndPermissions`: trim, skip empties, dedupe by a
seen-set (the accumulated list itself). -/
def addRolePerms (perms : List String) (acc : List String) : List String :=
  match perms with
  | [] => acc
  | p :: ps =>
    let p' := trimStr p
    if p' = "" ∨ p' ∈ acc then addRolePerms ps acc
    else addRolePerms ps (acc ++ [p'])

/-- The main loop of `resolveEffectiveRolesAndPermissions`: skip nil
entries and non-active roles, dedupe names and permission codes in
encounter order.  Go's `[]*Role` may hold nil pointers, hence
`Option RoleRec` entries. -/
def resolveLoop (roles : List (Option RoleRec))
    (names acc : List String) : List String × List String :=
  match roles with
  | [] => (names, acc)
  | none :: rest => resolveLoop rest names acc
  | some role :: rest =>
    if ¬role.status = "active" then resolveLoop rest names acc
    else
      let name := trimStr role.name
      let names' :=
        if ¬name = "" ∧ name ∉ names then names ++ [name] else names
      resolveLoop rest names' (addRolePerms role.permissions acc)

/-- `UserService.resolveEffectiveRolesAndPermissions`: load the user's
role assignments, discard inactive roles, dedupe, sort both outputs. -/
def resolveEffectiveRolesAndPermissions (db : IamDb) (userID : Int) :
    List String × List String :=
  let (names, perms) := resolveLoop ((findRolesByUserID db userID).map some) [] []
  (sortStrings names, sortStrings perms)

/-- `UserRepo.GetByID`: filters soft-deleted rows, NotFound otherwise. -/
def getUserByID (db : IamDb) (userID : Int) : Except ErrX UserRec :=
  match db.users.find? (fun u => u.id == userID && !u.deleted) with
  | some u => .ok u
  | none => .error ⟨.notFound, "用户不存在"⟩

/-- `entity.User.IsActive` (the user entity file is concatenated into
the group repository test file): the account is active iff its status
is `"active"`. -/
def UserRec.isActive (u : UserRec) : Bool :=
  u.status == "active"

/-- The inner loop of `entity.User.GetAllPermissions`: append each code
of one role unless already collected (dedupe by the seen-set, which
always holds exactly the collected codes). -/
def dedupAppendPerms (perms : List String) (acc : List String) :
    List String :=
  match perms with
  | [] => acc
  | p :: ps =>
    if p ∈ acc then dedupAppendPerms ps acc
    else dedupAppendPerms ps (acc ++ [p])

/-- The role loop of `entity.User.GetAllPermissions`. -/
def getAllPermissionsLoop (roles : List RoleRec) (acc : List String) :
    List String :=
  match roles with
  | [] => acc
  | role :: rest => getAllPermissionsLoop rest (dedupAppendPerms role.permissions acc)

/-- `entity.User.GetAllPermissions`: the deduplicated codes of the
loaded `Roles` association, in encounter order — no role-status filter
and no trimming. -/
def UserRec.getAllPermissions (u : UserRec) : List String :=
  getAllPermissionsLoop u.roles []

/-- `UserService.GetAuthSnapshot` result payload. -/
structure AuthSnapshot where
  userID : Int
  username : String
  roles : List String
  permissions : List String
  deriving DecidableEq, Repr

/-- `UserService.GetAuthSnapshot`: NotFound for a missing user, then a
Validation error (`用户账户已被禁用`) for a non-active account, then the
effective role/permission resolution. -/
def getAuthSnapshot (db : IamDb) (userID : Int) : Except ErrX AuthSnapshot := do
  let user ← getUserByID db userID
  if !user.isActive then
    throw ⟨.validation, "用户账户已被禁用"⟩
  let (roles, permissions) := resolveEffectiveRolesAndPermissions db userID
  return ⟨user.id, user.username, roles, permissions⟩

/-- `UserService.GetUserPermissions`: fetches the user (no preload of
the `Roles` association) and returns `GetAllPermissions`; the source
performs no account-status check. -/
def getUserPermissions (db : IamDb) (userID : Int) :
    Except ErrX (List String) := do
  let user ← getUserByID db userID
  return user.getAllPermissions

/-- `UserService.CheckPermission`: linear scan with exact equality. -/
def checkPermission (db : IamDb) (userID : Int) (permission : String) :
    Except ErrX Bool := do
  let perms ← getUserPermissions db userID
  return perms.any (fun p => p == permission)

/-! ## Organizational groups (`entity.Group`, `repo/group`, group service)

`entity.Group` carries a `Parent *Group` pointer next to `ParentID`.  The
embedded operations read only the pointer's `ID`, `Level` and `Path`
fields (`SetParent`, `UpdatePath`), so the pointer is modelled as an
optional snapshot of those three fields.  `strconv.FormatInt(id, 10)` is
`toString` on `Int`. -/

/-- The fields of the `Parent` pointer that path maintenance reads. -/
structure GroupCore where
  id : Int
  level : Int
  path : String
  deriving DecidableEq, Repr

/-- An `entity.Group` value: id, name, parent id, level, materialized
path, soft-deletion marker, and the in-memory `Parent` pointer. -/
structure GroupT where
  id : Int
  name : String
  parentID : Option Int
  level : Int
  path : String
  deleted : Bool
  parent : Option GroupCore
  deriving DecidableEq, Repr

/-- The `Parent`-pointer snapshot of a group. -/
def GroupT.core (g : GroupT) : GroupCore :=
  ⟨g.id, g.level, g.path⟩

/-- `entity.Group.SetParent`: rewires the parent pointer and parent id and
recomputes level and path (path only when an id is assigned). -/
def GroupT.setParent (g : GroupT) (parent : Option GroupT) : GroupT :=
  match parent with
  | none =>
    { g with
      parent := none
      parentID := none
      level := 1
      path := if g.id > 0 then "/" ++ toString g.id else "" }
  | some p =>
    { g with
      parent := some p.core
      parentID := some p.id
      level := p.level + 1
      path := if g.id > 0 then p.path ++ "/" ++ toString g.id else "" }

/-- `entity.Group.UpdatePath`: recompute path and level from the parent
pointer; no-op when `ParentID` is set but the pointer is nil. -/
def GroupT.updatePath (g : GroupT) : GroupT :=
  match g.parentID with
  | none => { g with path := "/" ++ toString g.id, level := 1 }
  | some _ =>
    match g.parent with
    | some p => { g with path := p.path ++ "/" ++ toString g.id, level := p.level + 1 }
    | none => g

/-- `entity.Group.IsAncestorOf`: path-prefix test against `other`
(false when `other`'s path is empty). -/
def GroupT.isAncestorOf (g other : GroupT) : Bool :=
  if other.path == "" then false
  else (g.path ++ "/").data.isPrefixOf other.path.data

/-- `entity.Group.IsDescendantOf`. -/
def GroupT.isDescendantOf (g other : GroupT) : Bool :=
  other.isAncestorOf g

/-- `svc.MaxGroupLevel` (reference policy: 10 levels). -/
def maxGroupLevel : Int := 10

/-- The group table of the persistence collaborator. -/
abbrev GroupDb := List GroupT

/-- The generic `Repo.Get` lookup used by `FindAncestors` (by id). -/
def lookupGroup (db : GroupDb) (id : Int) : Option GroupT :=
  List.find? (fun g => g.id == id) db

/-- `GroupRepo.GetByID`: filters soft-deleted rows, NotFound otherwise. -/
def getGroupByID (db : GroupDb) (id : Int) : Except ErrX GroupT :=
  match List.find? (fun g => g.id == id && !g.deleted) db with
  | some g => .ok g
  | none => .error ⟨.notFound, "组织不存在"⟩

/-- `GroupRepo.FindChildren`: rows with the given parent id, not
soft-deleted. -/
def findChildren (db : GroupDb) (parentID : Int) : List GroupT :=
  List.filter (fun g => g.parentID == some parentID && !g.deleted) db

/-- `BusinessValidator.validateGroupParentChange`: self-parenting,
moving under a descendant, and over-deep targets are Validation errors;
a missing target parent is NotFound. -/
def validateGroupParentChange (db : GroupDb) (group : GroupT)
    (newParentID : Option Int) : Except ErrX Unit :=
  match newParentID with
  | none => .ok ()
  | some pid =>
    if pid == group.id then .error ⟨.validation, "不能将组织设置为自己的父组织"⟩
    else
      match getGroupByID db pid with
      | .error _ => .error ⟨.notFound, "新父组织不存在"⟩
      | .ok newParent =>
        if newParent.isDescendantOf group then
          .error ⟨.validation, "不能将组织移动到其子组织下"⟩
        else if newParent.level ≥ maxGroupLevel then
          .error ⟨.validation, "目标组织层级过深"⟩
        else .ok ()

/-- Reparenting as the service composes it: validate the parent change
(`validateGroupParentChange`), then fetch the new parent and apply
`entity.Group.SetParent`. -/
def setParentChecked (db : GroupDb) (group : GroupT)
    (newParentID : Option Int) : Except ErrX GroupT := do
  let () ← validateGroupParentChange db group newParentID
  match newParentID with
  | none => return group.setParent none
  | some pid =>
    match getGroupByID db pid with
    | .error e => .error e
    | .ok newParent => return group.setParent (some newParent)

/-- `svc.CreateGroupRequest` restricted to the fields the flow reads. -/
structure CreateGroupReq where
  name : String
  parentID : Option Int
  deriving DecidableEq, Repr

/-- `GroupService.checkGroupNameDuplicate`: same-level name uniqueness
(root set when parentless, sibling set otherwise). -/
def checkGroupNameDuplicate (db : GroupDb) (name : String)
    (parentID : Option Int) : Except ErrX Unit :=
  let groups :=
    match parentID with
    | none => List.filter (fun (g : GroupT) => g.parentID == none && !g.deleted) db
    | some pid => findChildren db pid
  if groups.any (fun g => g.name == name) then
    .error ⟨.validation, "同一层级下组织名称不能重复"⟩
  else .ok ()

/-- `GroupService.CreateGroup`, two-phase: validate, fetch the parent,
check depth and sibling-name uniqueness, build the entity (level/path via
`SetParent` when a parent exists, bare `Level = 1` otherwise), insert
(assigning `newId`), then `UpdatePath` now that the id exists. -/
def createGroup (db : GroupDb) (req : CreateGroupReq) (newId : Int) :
    Except ErrX GroupT := do
  if req.name == "" then
    throw ⟨.validation, "组织名称不能为空"⟩
  let parentGroup : Option GroupT ←
    match req.parentID with
    | none => pure none
    | some pid =>
      match getGroupByID db pid with
      | .error _ => throw ⟨.notFound, "父组织不存在"⟩
      | .ok parent =>
        if parent.level ≥ maxGroupLevel then
          throw ⟨.validation, "组织层级不能超过10级"⟩
        else pure (some parent)
  let () ← checkGroupNameDuplicate db req.name req.parentID
  let group : GroupT :=
    { id := 0, name := req.name, parentID := req.parentID, level := 0
      path := "", deleted := false, parent := none }
  let group :=
    match parentGroup with
    | some p => group.setParent (some p)
    | none => { group with level := 1 }
  let group := { group with id := newId }
  return group.updatePath

/-- The loop of `GroupRepo.FindAncestors`, with an explicit step bound:
walk `ParentID` pointers, prepending each found parent (root-first) and
stopping quietly when a parent row is missing.  The Boolean records
whether the walk completed within the bound; the source carries no
cycle guard, so on cyclic data no bound completes. -/
def ancLoop (db : GroupDb) (cur : GroupT) : Nat → List GroupT × Bool
  | 0 => ([], false)
  | fuel + 1 =>
    match cur.parentID with
    | none => ([], true)
    | some pid =>
      match lookupGroup db pid with
      | none => ([], true)
      | some p =>
        let (anc, fin) := ancLoop db p fuel
        (anc ++ [p], fin)

/-- `GroupRepo.FindAncestors`: fetch the group, then walk upward. -/
def findAncestorsFuel (db : GroupDb) (groupID : Int) (fuel : Nat) :
    Except ErrX (List GroupT × Bool) :=
  match lookupGroup db groupID with
  | none => .error ⟨.notFound, "组织不存在"⟩
  | some g => .ok (ancLoop db g fuel)

mutual

/-- `GroupRepo.findDescendantsRecursive` with an explicit recursion-depth
bound: enumerate children, recursing into each; `none` when the bound is
exhausted.  The source carries no visited set, so on cyclic data no
bound suffices. -/
def findDescFuel (db : GroupDb) (parentID : Int) :
    Nat → Option (List GroupT)
  | 0 => none
  | fuel + 1 => descChildren db (findChildren db parentID) fuel

/-- Child-list traversal of `findDescendantsRecursive`: append the child,
then its descendants, then the remaining siblings. -/
def descChildren (db : GroupDb) (children : List GroupT) (fuel : Nat) :
    Option (List GroupT) :=
  match children with
  | [] => some []
  | c :: cs => do
    let sub ← findDescFuel db c.id fuel
    let rest ← descChildren db cs fuel
    pure (c :: (sub ++ rest))

end

/-! ## Menu visibility filter (`service/menu/menu.go`)

`MenuNode` is the in-memory tree node assembled per request; the filter
reads id, the hidden/disabled flags and the two permission predicates.
A nil `httpx.IRequestContext` is `none`.  The shared `visited` map
threading through the recursion is an explicit id list. -/

/-- A `menu.MenuNode` restricted to the fields sort/filter read. -/
inductive MenuNode where
  | mk (id : Int) (order : Int) (title : String) (hidden : Bool)
      (disabled : Bool) (anyOf : List String) (allOf : List String)
      (children : List MenuNode)

/-- The node id. -/
def MenuNode.id : MenuNode → Int
  | .mk i _ _ _ _ _ _ _ => i

/-- The sibling ordering key. -/
def MenuNode.order : MenuNode → Int
  | .mk _ o _ _ _ _ _ _ => o

/-- The node title. -/
def MenuNode.title : MenuNode → String
  | .mk _ _ t _ _ _ _ _ => t

/-- The hidden flag. -/
def MenuNode.hidden : MenuNode → Bool
  | .mk _ _ _ h _ _ _ _ => h

/-- The disabled flag. -/
def MenuNode.disabled : MenuNode → Bool
  | .mk _ _ _ _ d _ _ _ => d

/-- The `any_of_permissions` disjunction. -/
def MenuNode.anyOf : MenuNode → List String
  | .mk _ _ _ _ _ a _ _ => a

/-- The `all_of_permissions` conjunction. -/
def MenuNode.allOf : MenuNode → List String
  | .mk _ _ _ _ _ _ a _ => a

/-- The child list. -/
def MenuNode.children : MenuNode → List MenuNode
  | .mk _ _ _ _ _ _ _ c => c

/-- Replace the child list (the filter mutates `n.Children`). -/
def MenuNode.withChildren : MenuNode → List MenuNode → MenuNode
  | .mk i o t h d any all _, c => .mk i o t h d any all c

/-- A node's child list is structurally smaller than the node. -/
theorem MenuNode.sizeOf_children_lt (n : MenuNode) :
    sizeOf n.children < sizeOf n := by
  cases n with
  | mk i o t h d any all c =>
    simp only [MenuNode.children, MenuNode.mk.sizeOf_spec]
    omega

/-- `menu.evaluateMenuVisibility`: with no request context only nodes
without permission predicates show; otherwise every `allOf` code must be
held and, when `anyOf` is non-empty, at least one `anyOf` code. -/
def evaluateMenuVisibility (n : MenuNode) (reqCtx : Option RequestContext) :
    Bool :=
  match reqCtx with
  | none => n.anyOf.isEmpty && n.allOf.isEmpty
  | some c =>
    if !(n.allOf.all (fun p => hasPermission (some c) p)) then false
    else if !n.anyOf.isEmpty then n.anyOf.any (fun p => hasPermission (some c) p)
    else true

/-- `menu.filterMenuTreeRec`: skip already-visited ids (cycle defense),
drop hidden/disabled nodes outright, filter children first, then keep a
node iff it is itself visible or kept a child.  Returns the surviving
forest and the final visited set. -/
def filterMenuForest (reqCtx : Option RequestContext) (visited : List Int) :
    List MenuNode → List MenuNode × List Int
  | [] => ([], visited)
  | n :: rest =>
    if n.id ∈ visited then filterMenuForest reqCtx visited rest
    else if n.disabled || n.hidden then
      filterMenuForest reqCtx (n.id :: visited) rest
    else
      let resc := filterMenuForest reqCtx (n.id :: visited) n.children
      let n' := n.withChildren resc.fst
      let resr := filterMenuForest reqCtx resc.snd rest
      (if evaluateMenuVisibility n' reqCtx || !resc.fst.isEmpty then
        n' :: resr.fst
      else resr.fst, resr.snd)
termination_by l => sizeOf l
decreasing_by
  all_goals simp_wf
  all_goals try (have h9 := MenuNode.sizeOf_children_lt n; omega)

/-- `menu.filterMenuTree`: the filter with a fresh visited set. -/
def filterMenuTree (nodes : List MenuNode) (reqCtx : Option RequestContext) :
    List MenuNode :=
  (filterMenuForest reqCtx [] nodes).fst

/-- All node ids of a forest, preorder. -/
def forestIds : List MenuNode → List Int
  | [] => []
  | n :: rest => n.id :: (forestIds n.children ++ forestIds rest)
termination_by l => sizeOf l
decreasing_by
  all_goals simp_wf
  all_goals try (have h9 := MenuNode.sizeOf_children_lt n; omega)

/-- Every node of the forest, at every depth, is neither hidden nor
disabled. -/
def forestClean : List MenuNode → Bool
  | [] => true
  | n :: rest =>
    !n.hidden && !n.disabled && forestClean n.children && forestClean rest
termination_by l => sizeOf l
decreasing_by
  all_goals simp_wf
  all_goals try (have h9 := MenuNode.sizeOf_children_lt n; omega)

/-- Node visibility written from the claim's words: a node is visible iff
every `allOf` code is held and (`anyOf` is empty or at least one `anyOf`
code is held); with no principal context, only nodes whose `anyOf` and
`allOf` lists are both empty are visible. -/
def visibleSpec (n : MenuNode) (reqCtx : Option RequestContext) : Bool :=
  match reqCtx with
  | none => n.anyOf == [] && n.allOf == []
  | some _ =>
    n.allOf.all (fun p => hasPermission reqCtx p) &&
      (n.anyOf == [] || n.anyOf.any (fun p => hasPermission reqCtx p))

/-- The visibility filter written from the claim's words: remove a node
outright if hidden or disabled; filter its children first; keep it iff
it is visible or at least one child survived. -/
def filterSpec (reqCtx : Option RequestContext) :
    List MenuNode → List MenuNode
  | [] => []
  | n :: rest =>
    if n.hidden || n.disabled then filterSpec reqCtx rest
    else
      let ch := filterSpec reqCtx n.children
      if visibleSpec n reqCtx || !ch.isEmpty then
        n.withChildren ch :: filterSpec reqCtx rest
      else filterSpec reqCtx rest
termination_by l => sizeOf l
decreasing_by
  all_goals simp_wf
  all_goals try (have h9 := MenuNode.sizeOf_children_lt n; omega)

/-! ## Claim-side specification predicates and concrete fixtures -/

/-- A role row effectively granting to a user: assigned, not
soft-deleted, and active. -/
def isEffectiveRoleOf (db : IamDb) (userID : Int) (r : RoleRec) : Prop :=
  r ∈ db.roles ∧ (userID, r.id) ∈ db.userRoles ∧
    r.deleted = false ∧ r.status = "active"

/-- The claim's path/level invariant for one group value: a parentless
group sits at level 1 with path `"/" + id`; a parented group sits one
level below its parent with the parent's path extended by its id. -/
def groupPathOk (g : GroupT) : Prop :=
  match g.parentID with
  | none => g.level = 1 ∧ g.path = "/" ++ toString g.id
  | some _ =>
    ∃ p, g.parent = some p ∧ g.level = p.level + 1 ∧
      g.path = p.path ++ "/" ++ toString g.id

/-- The ancestor-walk result read child-upward: each entry is the row
found for the previous entry's parent id, and the walk ends at a root or
at a missing parent row (truncation). -/
def chainUp (db : GroupDb) : GroupT → List GroupT → Prop
  | g, [] =>
    g.parentID = none ∨ ∃ pid, g.parentID = some pid ∧ lookupGroup db pid = none
  | g, p :: rest =>
    ∃ pid, g.parentID = some pid ∧ lookupGroup db pid = some p ∧ chainUp db p rest

/-- A two-row group table whose parent pointers form a cycle. -/
def cycGroupA : GroupT :=
  { id := 1, name := "a", parentID := some 2, level := 1, path := "/2/1"
    deleted := false, parent := none }

/-- Second row of the cyclic group table. -/
def cycGroupB : GroupT :=
  { id := 2, name := "b", parentID := some 1, level := 1, path := "/1/2"
    deleted := false, parent := none }

/-- The cyclic group table: 1's parent is 2 and 2's parent is 1. -/
def cycDb : GroupDb := [cycGroupA, cycGroupB]

/-- Root of a three-level acyclic group chain. -/
def chainRoot : GroupT :=
  { id := 1, name := "r", parentID := none, level := 1, path := "/1"
    deleted := false, parent := none }

/-- Middle node of the acyclic chain. -/
def chainMid : GroupT :=
  { id := 2, name := "m", parentID := some 1, level := 2, path := "/1/2"
    deleted := false, parent := none }

/-- Leaf of the acyclic chain. -/
def chainLeaf : GroupT :=
  { id := 3, name := "c", parentID := some 2, level := 3, path := "/1/2/3"
    deleted := false, parent := none }

/-- The acyclic three-row group table. -/
def chainDb : GroupDb := [chainRoot, chainMid, chainLeaf]

/-- A database with one disabled and one locked user, both assigned an
active role granting `perm:active`. -/
def c1Db : IamDb :=
  { users :=
      [ { id := 1, username := "alice", status := "inactive", deleted := false
          roles := [] }
      , { id := 2, username := "bob", status := "locked", deleted := false
          roles := [] } ]
    roles :=
      [ { id := 10, name := "perm_role", status := "active"
          permissions := ["perm:active"], deleted := false } ]
    userRoles := [(1, 10), (2, 10)] }

/-- A user entity value whose `Roles` association was preloaded with a
deactivated role. -/
def loadedUser : UserRec :=
  { id := 3, username := "carol", status := "active", deleted := false
    roles :=
      [ { id := 11, name := "old_role", status := "inactive"
          permissions := ["perm:inactive"], deleted := false } ] }

/-- A database mirroring the snapshot test: one user holding an active
role, a deactivated role and a soft-deleted role. -/
def c3Db : IamDb :=
  { users :=
      [{ id := 1, username := "snap", status := "active", deleted := false
         roles := [] }]
    roles :=
      [ { id := 21, name := "role_inactive", status := "inactive"
          permissions := ["perm:inactive"], deleted := false }
      , { id := 22, name := "role_active", status := "active"
          permissions := ["perm:active", "perm:zeta"], deleted := false }
      , { id := 23, name := "role_deleted", status := "active"
          permissions := ["perm:deleted"], deleted := true }
      , { id := 24, name := "role_b", status := "active"
          permissions := ["perm:active", "perm:alpha"], deleted := false } ]
    userRoles := [(1, 21), (1, 22), (1, 23), (1, 24)] }

/-- A non-admin request context holding permission `a:b`. -/
def ctxC2 : Option RequestContext :=
  withPermissions (withRoles (some emptyCtx) []) ["a:b"]

/-- The claim's example menu child: `anyOf = {a:a, b:b}`. -/
def exChild : MenuNode :=
  .mk 2 0 "C" false false ["a:a", "b:b"] [] []

/-- The claim's example menu root: requires permission `x:x`, one child. -/
def exRoot : MenuNode :=
  .mk 1 0 "R" false false [] ["x:x"] [exChild]

/-- The claim's example forest. -/
def exForest : List MenuNode := [exRoot]

/-- A principal context holding only permission `a:a`. -/
def exCtx : Option RequestContext :=
  withPermissions (some emptyCtx) ["a:a"]

/-- A root group already sitting at the maximum depth (level 10). -/
def deepGroup : GroupT :=
  { id := 9, name := "deep", parentID := none, level := 10, path := "/9"
    deleted := false, parent := none }

/-- The acyclic chain plus the maximum-depth group. -/
def deepDb : GroupDb := chainDb ++ [deepGroup]

/-- A group value whose parent pointer is loaded, with stale level/path. -/
def staleGroup : GroupT :=
  { id := 5, name := "w", parentID := some 1, level := 0, path := "x"
    deleted := false, parent := some chainRoot.core }

/-- The concrete result of creating a child of `chainMid` with id 7. -/
def createdGroup : GroupT :=
  { id := 7, name := "new", parentID := some 2, level := 3, path := "/1/2/7"
    deleted := false, parent := some chainMid.core }

deriving instance DecidableEq for Except

/-! ## Theorems -/

/-- C10: `HasPermission(ctx, "")` returns true for every request context,
including a nil context with no roles and no permissions — the empty
permission code is accepted before any role or permission-set lookup. -/
theorem C10_empty_code_always_allowed (ctx : Option RequestContext) :
    hasPermission ctx "" = true := rfl

/-- C6: the strict registry check fails with an Internal error while zero
codes are registered (and the failure is not cached); once at least one
code is registered a call succeeds and sets the once-only flag; a
validated state short-circuits to success; registering a non-empty code
leaves the registry non-empty. -/
theorem C6_strict_registry_fail_close (s : RegistryState) :
    (s.validated = false → requiredPermissionsCount s = 0 →
      ensureStrictPermissionRegistryLoaded s =
        (.error ⟨.internal,
          "required permissions registry 为空（尚未完成权限字典注册）"⟩, s)) ∧
    (s.validated = false → requiredPermissionsCount s ≠ 0 →
      ensureStrictPermissionRegistryLoaded s =
        (.ok (), { s with validated := true })) ∧
    (s.validated = true → ensureStrictPermissionRegistryLoaded s = (.ok (), s)) ∧
    (∀ p, p ≠ "" → requiredPermissionsCount (registerRequiredPermission s p) ≠ 0) := by
  refine ⟨fun hv hc => ?_, fun hv hc => ?_, fun hv => ?_, fun p hp => ?_⟩
  · simp [ensureStrictPermissionRegistryLoaded, validateStrictPermissionRegistry, hv, hc]
  · simp [ensureStrictPermissionRegistryLoaded, validateStrictPermissionRegistry, hv, hc]
  · simp [ensureStrictPermissionRegistryLoaded, hv]
  · by_cases hm : p ∈ s.perms
    · simp [registerRequiredPermission, requiredPermissionsCount, hp, hm]
      intro h
      exact absurd (h ▸ hm) (List.not_mem_nil p)
    · simp [registerRequiredPermission, requiredPermissionsCount, hp, hm]

/-- Witness for C6 at concrete registry states. -/
theorem C6_strict_registry_fail_close_witness :
    ensureStrictPermissionRegistryLoaded ⟨[], false⟩ =
      (.error ⟨.internal,
        "required permissions registry 为空（尚未完成权限字典注册）"⟩, ⟨[], false⟩) ∧
    ensureStrictPermissionRegistryLoaded ⟨["user:read"], false⟩ =
      (.ok (), ⟨["user:read"], true⟩) ∧
    ensureStrictPermissionRegistryLoaded ⟨["user:read"], true⟩ =
      (.ok (), ⟨["user:read"], true⟩) ∧
    requiredPermissionsCount (registerRequiredPermission ⟨[], false⟩ "user:read") ≠ 0 :=
  ⟨(C6_strict_registry_fail_close ⟨[], false⟩).1 rfl rfl,
   (C6_strict_registry_fail_close ⟨["user:read"], false⟩).2.1 rfl (by decide),
   (C6_strict_registry_fail_close ⟨["user:read"], true⟩).2.2.1 rfl,
   (C6_strict_registry_fail_close ⟨[], false⟩).2.2.2 "user:read" (by decide)⟩

/-- C1 (code bug): evaluating the embedded services on a disabled and on
a locked principal.  No path fails with Forbidden: `GetUserPermissions`
performs no account-status check and succeeds — returning the empty
list, since `GetByID` does not preload the `Roles` association that
`GetAllPermissions` reads — `CheckPermission` likewise succeeds with
`false`, and `GetAuthSnapshot` rejects with a Validation — not
Forbidden — error.  This contradicts the claim and the repository's own
tests (`TestUserServiceAuthPathsRejectDisabledUserAsForbidden`,
`TestUserServiceGetUserPermissionsRequiresActiveUser`).  The final
conjunct evaluates the entity method on a preloaded user: even then,
`GetAllPermissions` applies no role-status filter. -/
theorem C1_disabled_principal_not_forbidden :
    getUserPermissions c1Db 1 = .ok [] ∧
    checkPermission c1Db 1 "perm:active" = .ok false ∧
    getAuthSnapshot c1Db 1 = .error ⟨.validation, "用户账户已被禁用"⟩ ∧
    getUserPermissions c1Db 2 = .ok [] ∧
    checkPermission c1Db 2 "perm:active" = .ok false ∧
    getAuthSnapshot c1Db 2 = .error ⟨.validation, "用户账户已被禁用"⟩ ∧
    ErrCode.validation ≠ ErrCode.forbidden ∧
    loadedUser.getAllPermissions = ["perm:inactive"] := by
  decide

/-- On the cyclic two-row table, the ancestor loop never completes
within any step bound (there is no revisited-id guard in the source). -/
theorem ancLoop_cycDb_stuck (fuel : Nat) :
    (ancLoop cycDb cycGroupA fuel).snd = false ∧
    (ancLoop cycDb cycGroupB fuel).snd = false := by
  induction fuel with
  | zero => exact ⟨rfl, rfl⟩
  | succ n ih =>
    refine ⟨?_, ?_⟩
    · show ((ancLoop cycDb cycGroupB n).fst ++ [cycGroupB],
        (ancLoop cycDb cycGroupB n).snd).snd = false
      exact ih.2
    · show ((ancLoop cycDb cycGroupA n).fst ++ [cycGroupA],
        (ancLoop cycDb cycGroupA n).snd).snd = false
      exact ih.1

/-- On the cyclic two-row table, the descendant enumeration never
completes within any recursion bound (no visited set in the source). -/
theorem descFuel_cycDb_stuck (fuel : Nat) :
    findDescFuel cycDb 1 fuel = none ∧ findDescFuel cycDb 2 fuel = none := by
  induction fuel with
  | zero => constructor <;> simp [findDescFuel]
  | succ n ih =>
    have h1 : findChildren cycDb 1 = [cycGroupB] := by decide
    have h2 : findChildren cycDb 2 = [cycGroupA] := by decide
    have hidB : cycGroupB.id = 2 := rfl
    have hidA : cycGroupA.id = 1 := rfl
    constructor
    · rw [findDescFuel, h1, descChildren, hidB, ih.2]
      rfl
    · rw [findDescFuel, h2, descChildren, hidA, ih.1]
      rfl

/-- C7 counterexample: on a concrete two-row cyclic parent graph the
ancestor walk is still running after 50 steps (it would have stopped
within 3 had the claimed revisited-id guard existed) and the descendant
enumeration is still recursing at depth 50. -/
theorem C7_no_cycle_guard_counterexample :
    (ancLoop cycDb cycGroupA 50).snd = false ∧
    findDescFuel cycDb 1 50 = none :=
  ⟨(ancLoop_cycDb_stuck 50).1, (descFuel_cycDb_stuck 50).1⟩

/-- C7 amended: the ancestor walk returns ancestors root-first and
truncates quietly at a missing parent row, and the descendant
enumeration recursion is bounded only by the data — neither carries a
revisited-id guard, so on a cyclic parent graph neither terminates
(no finite step bound completes). -/
theorem C7_traversals_amended :
    (∀ fuel, (ancLoop cycDb cycGroupA fuel).snd = false) ∧
    (∀ fuel, findDescFuel cycDb 1 fuel = none) ∧
    (∀ (db : GroupDb) (g : GroupT) (fuel : Nat) (res : List GroupT),
      ancLoop db g fuel = (res, true) → chainUp db g res.reverse) := by
  refine ⟨fun fuel => (ancLoop_cycDb_stuck fuel).1,
    fun fuel => (descFuel_cycDb_stuck fuel).1, ?_⟩
  intro db g fuel
  induction fuel generalizing g with
  | zero =>
    intro res h
    exact absurd (congrArg Prod.snd h) (by simp [ancLoop])
  | succ n ih =>
    intro res h
    rw [ancLoop] at h
    cases hp : g.parentID with
    | none =>
      simp only [hp] at h
      cases h
      exact Or.inl hp
    | some pid =>
      simp only [hp] at h
      cases hl : lookupGroup db pid with
      | none =>
        simp only [hl] at h
        cases h
        exact Or.inr ⟨pid, hp, hl⟩
      | some p =>
        simp only [hl] at h
        cases hr : ancLoop db p n with
        | mk anc fin =>
          simp only [hr] at h
          have hres : res = anc ++ [p] := (congrArg Prod.fst h).symm
          have hfin : fin = true := congrArg Prod.snd h
          have hch := ih p anc (by rw [hr, hfin])
          rw [hres]
          simp only [List.reverse_append, List.reverse_cons, List.reverse_nil,
            List.nil_append, List.singleton_append]
          exact ⟨pid, hp, hl, hch⟩

/-- Witness for C7 on an acyclic three-level chain: the walk from the
leaf completes within 5 steps, returns `[root, mid]` root-first, and the
result satisfies the chain characterization. -/
theorem C7_traversals_amended_witness :
    ancLoop chainDb chainLeaf 5 = ([chainRoot, chainMid], true) ∧
    chainUp chainDb chainLeaf ([chainRoot, chainMid]).reverse :=
  ⟨by decide,
   C7_traversals_amended.2.2 chainDb chainLeaf 5 [chainRoot, chainMid] (by decide)⟩

/-- A successful `GroupRepo.GetByID` returns the row with the requested
id, not soft-deleted. -/
theorem getGroupByID_ok {db : GroupDb} {pid : Int} {p : GroupT}
    (h : getGroupByID db pid = .ok p) :
    p.id = pid ∧ p.deleted = false ∧ p ∈ db := by
  unfold getGroupByID at h
  cases hf : List.find? (fun g => g.id == pid && !g.deleted) db with
  | none => rw [hf] at h; cases h
  | some q =>
    rw [hf] at h
    cases h
    have hq := List.find?_some hf
    have hmem := List.mem_of_find?_eq_some hf
    simp only [Bool.and_eq_true, beq_iff_eq, Bool.not_eq_true'] at hq
    exact ⟨hq.1, hq.2, hmem⟩

/-- C5: reparenting validation rejects, with a Validation error, a
target parent equal to the group itself, a target parent lying below the
group (path-descendant), and a target parent already at the maximum
depth of 10 levels; on success the group's level and path are recomputed
by `SetParent` from the fetched parent. -/
theorem C5_reparent_validation :
    (∀ (db : GroupDb) (g : GroupT),
      setParentChecked db g (some g.id) =
        .error ⟨.validation, "不能将组织设置为自己的父组织"⟩) ∧
    (∀ (db : GroupDb) (g : GroupT) (pid : Int) (p : GroupT),
      ¬pid = g.id → getGroupByID db pid = .ok p → p.isDescendantOf g = true →
      setParentChecked db g (some pid) =
        .error ⟨.validation, "不能将组织移动到其子组织下"⟩) ∧
    (∀ (db : GroupDb) (g : GroupT) (pid : Int) (p : GroupT),
      ¬pid = g.id → getGroupByID db pid = .ok p → p.isDescendantOf g = false →
      p.level ≥ maxGroupLevel →
      setParentChecked db g (some pid) =
        .error ⟨.validation, "目标组织层级过深"⟩) ∧
    (∀ (db : GroupDb) (g : GroupT) (pid : Int) (g' : GroupT),
      setParentChecked db g (some pid) = .ok g' →
      ¬pid = g.id ∧ ∃ p, getGroupByID db pid = .ok p ∧
        p.isDescendantOf g = false ∧ p.level < maxGroupLevel ∧
        g' = g.setParent (some p)) ∧
    (∀ (db : GroupDb) (g g' : GroupT),
      setParentChecked db g none = .ok g' → g' = g.setParent none) := by
  refine ⟨?_, ?_, ?_, ?_, ?_⟩
  · intro db g
    simp [setParentChecked, validateGroupParentChange, Bind.bind, Except.bind]
  · intro db g pid p hne hget hdesc
    simp [setParentChecked, validateGroupParentChange, Bind.bind, Except.bind,
      hne, hget, hdesc]
  · intro db g pid p hne hget hdesc hlvl
    simp [setParentChecked, validateGroupParentChange, Bind.bind, Except.bind,
      hne, hget, hdesc, hlvl]
  · intro db g pid g' h
    by_cases hne : pid = g.id
    · simp [setParentChecked, validateGroupParentChange, Bind.bind,
        Except.bind, hne] at h
    · cases hget : getGroupByID db pid with
      | error e =>
        simp [setParentChecked, validateGroupParentChange, Bind.bind,
          Except.bind, hne, hget] at h
      | ok p =>
        by_cases hdesc : p.isDescendantOf g = true
        · simp [setParentChecked, validateGroupParentChange, Bind.bind,
            Except.bind, hne, hget, hdesc] at h
        · by_cases hlvl : p.level ≥ maxGroupLevel
          · simp [setParentChecked, validateGroupParentChange, Bind.bind,
              Except.bind, hne, hget, hdesc, hlvl] at h
          · simp [setParentChecked, validateGroupParentChange, Bind.bind,
              Except.bind, Pure.pure, Except.pure, hne, hget, hdesc, hlvl] at h
            exact ⟨hne, p, rfl, by simpa using hdesc, lt_of_not_ge hlvl, h.symm⟩
  · intro db g g' h
    simp [setParentChecked, validateGroupParentChange, Bind.bind, Except.bind,
      Pure.pure, Except.pure] at h
    exact h.symm

/-- Witness for C5: self-parenting, moving the root under its own
descendant, and a level-10 target all fail with Validation; moving the
leaf under the root succeeds and recomputes level and path. -/
theorem C5_reparent_validation_witness :
    setParentChecked chainDb chainRoot (some 1) =
      .error ⟨.validation, "不能将组织设置为自己的父组织"⟩ ∧
    setParentChecked chainDb chainRoot (some 3) =
      .error ⟨.validation, "不能将组织移动到其子组织下"⟩ ∧
    setParentChecked deepDb chainMid (some 9) =
      .error ⟨.validation, "目标组织层级过深"⟩ ∧
    setParentChecked chainDb chainLeaf (some 1) =
      .ok (chainLeaf.setParent (some chainRoot)) := by
  refine ⟨C5_reparent_validation.1 chainDb chainRoot, ?_, ?_, ?_⟩
  · exact C5_reparent_validation.2.1 chainDb chainRoot 3 chainLeaf
      (by decide) (by decide) (by decide)
  · exact C5_reparent_validation.2.2.1 deepDb chainMid 9 deepGroup
      (by decide) (by decide) (by decide) (by decide)
  · show setParentChecked chainDb chainLeaf (some 1) =
      .ok (chainLeaf.setParent (some chainRoot))
    decide

/-- C8: after `SetParent`, after `UpdatePath` (with the parent pointer
loaded when a parent id is set), and after the two-phase `CreateGroup`,
a group with an assigned id is at level 1 with path `"/" + id` when
parentless, and otherwise at `parent.level + 1` with path
`parent.path + "/" + id`. -/
theorem C8_path_level_invariants :
    (∀ (g : GroupT) (parent : Option GroupT), g.id > 0 →
      groupPathOk (g.setParent parent)) ∧
    (∀ g : GroupT, (∀ pid, g.parentID = some pid → g.parent.isSome = true) →
      groupPathOk g.updatePath) ∧
    (∀ (db : GroupDb) (req : CreateGroupReq) (newId : Int) (g : GroupT),
      newId > 0 → createGroup db req newId = .ok g →
      g.id = newId ∧ groupPathOk g ∧
        (∀ pid, g.parentID = some pid →
          ∃ pr, getGroupByID db pid = .ok pr ∧ g.parent = some pr.core)) := by
  refine ⟨?_, ?_, ?_⟩
  · intro g parent hid
    cases parent with
    | none => simp [GroupT.setParent, groupPathOk, hid]
    | some p =>
      simp only [GroupT.setParent, groupPathOk, if_pos hid]
      exact ⟨p.core, rfl, rfl, rfl⟩
  · intro g hloaded
    cases hp : g.parentID with
    | none => simp [GroupT.updatePath, groupPathOk, hp]
    | some pid =>
      cases hpar : g.parent with
      | none => simp [hpar] at hloaded; exact absurd hp (by simp [hloaded pid])
      | some p =>
        simp only [GroupT.updatePath, hp, hpar, groupPathOk]
        exact ⟨p, rfl, rfl, rfl⟩
  · intro db req newId g hid h
    by_cases hname : req.name == ""
    · simp [createGroup, Bind.bind, Except.bind, hname] at h
    · cases hpid : req.parentID with
      | none =>
        rw [createGroup] at h
        simp only [hname, Bool.false_eq_true, if_false, hpid] at h
        cases hdup : checkGroupNameDuplicate db req.name req.parentID with
        | error e =>
          rw [hpid] at hdup
          simp [Bind.bind, Except.bind, Pure.pure, Except.pure, hdup] at h
        | ok u =>
          rw [hpid] at hdup
          simp [Bind.bind, Except.bind, Pure.pure, Except.pure, hdup] at h
          subst h
          refine ⟨rfl, ?_, ?_⟩
          · simp [GroupT.updatePath, groupPathOk]
          · intro pid hcontra
            simp [GroupT.updatePath] at hcontra
      | some pid =>
        rw [createGroup] at h
        simp only [hname, Bool.false_eq_true, if_false, hpid] at h
        cases hget : getGroupByID db pid with
        | error e =>
          simp [Bind.bind, Except.bind, Pure.pure, Except.pure, hget] at h
        | ok p =>
          by_cases hlvl : p.level ≥ maxGroupLevel
          · simp [Bind.bind, Except.bind, Pure.pure, Except.pure, hget, hlvl] at h
          · cases hdup : checkGroupNameDuplicate db req.name (some pid) with
            | error e =>
              simp [Bind.bind, Except.bind, Pure.pure, Except.pure, hget,
                hlvl, hdup] at h
            | ok u =>
              simp [Bind.bind, Except.bind, Pure.pure, Except.pure, hget,
                hlvl, hdup] at h
              subst h
              refine ⟨rfl, ?_, ?_⟩
              · simp [GroupT.setParent, GroupT.updatePath, groupPathOk]
              · intro pid' hpid'
                simp [GroupT.setParent, GroupT.updatePath] at hpid'
                have hpids := getGroupByID_ok hget
                have hpp : pid' = pid := by rw [← hpid', hpids.1]
                refine ⟨p, ?_, ?_⟩
                · rw [hpp]
                  exact hget
                · simp [GroupT.setParent, GroupT.updatePath]

/-- Witness for C8: `SetParent` on the leaf, `UpdatePath` on a stale
group with a loaded parent pointer, and a concrete two-phase
`CreateGroup` all establish the path/level invariant. -/
theorem C8_path_level_invariants_witness :
    groupPathOk (chainLeaf.setParent (some chainRoot)) ∧
    groupPathOk staleGroup.updatePath ∧
    (createGroup chainDb { name := "new", parentID := some 2 } 7 =
      .ok createdGroup ∧ groupPathOk createdGroup) := by
  refine ⟨C8_path_level_invariants.1 chainLeaf (some chainRoot) (by decide),
    C8_path_level_invariants.2.1 staleGroup ?_, ?_, ?_⟩
  · intro pid h
    simp [staleGroup]
  · decide
  · exact (C8_path_level_invariants.2.2 chainDb
      { name := "new", parentID := some 2 } 7 createdGroup (by decide)
      (by decide)).2.1

/-- Lowering a string yields the empty string only for the empty
string. -/
theorem lowerStr_eq_empty_iff (s : String) : lowerStr s = "" ↔ s = "" := by
  cases s with
  | mk data =>
    constructor
    · intro h
      have hd : (lowerStr ⟨data⟩).data = [] := by rw [h]
      simp only [lowerStr] at hd
      simp only [List.map_eq_nil_iff] at hd
      rw [hd]
    · intro h
      rw [h]
      rfl

/-- Roles written through `WithRoles` read back unchanged (an empty list
writes nothing, which reads back as the empty list). -/
theorem getRoles_built (roles perms : List String) :
    getRoles (withPermissions (withRoles (some emptyCtx) roles) perms) =
      roles := by
  cases roles <;> cases perms <;>
    simp [withRoles, withPermissions, getRoles, emptyCtx]

/-- Permissions written through `WithPermissions` read back unchanged. -/
theorem getPermissions_built (roles perms : List String) :
    getPermissions (withPermissions (withRoles (some emptyCtx) roles) perms) =
      perms := by
  cases roles <;> cases perms <;>
    simp [withRoles, withPermissions, getPermissions, emptyCtx]

/-- The permission-set keys written through `WithPermissions`. -/
theorem getPermissionSet_built (roles perms : List String) :
    getPermissionSet (withPermissions (withRoles (some emptyCtx) roles) perms) =
      if perms.isEmpty then none else some (mkPermSet perms) := by
  cases roles <;> cases perms <;>
    simp [withRoles, withPermissions, getPermissionSet, emptyCtx]

/-- `HasAnyRole` for the single `system_admin` requirement is the
case-insensitive scan of the context's role list. -/
theorem hasAnyRole_single (ctx : Option RequestContext) :
    hasAnyRole ctx ["system_admin"] =
      (getRoles ctx).any (fun r => eqFold r "system_admin") := by
  cases hr : getRoles ctx with
  | nil => simp [hasAnyRole, hr]
  | cons a l => simp [hasAnyRole, hr]

/-- Membership in the lowered key set agrees with the case-insensitive
scan of the raw list, for non-empty codes. -/
theorem mkPermSet_contains (perms : List String) (code : String)
    (h : ¬code = "") :
    ((mkPermSet perms).contains (lowerStr code) = true ↔
      perms.any (fun p => eqFold p code) = true) := by
  simp only [mkPermSet, List.contains_eq_any_beq, List.any_eq_true,
    List.mem_map, List.mem_filter, eqFold, beq_iff_eq]
  constructor
  · rintro ⟨x, ⟨p, ⟨hp, hpe⟩, hx⟩, hxe⟩
    exact ⟨p, hp, by rw [hx, hxe]⟩
  · rintro ⟨p, hp, hpe⟩
    refine ⟨lowerStr p, ⟨p, ⟨hp, ?_⟩, rfl⟩, by rw [hpe]⟩
    have hne : ¬p = "" := by
      intro hp0
      rw [hp0] at hpe
      exact h ((lowerStr_eq_empty_iff code).mp hpe.symm)
    simpa using hne

/-- C2 counterexample: a context carrying permission `a:b` and no roles
is not a `system_admin` context, yet `HasPermission` accepts the empty
code `""`, which is not a case-insensitive member of the context's
permission set — so the membership characterization fails at `""`. -/
theorem C2_empty_code_counterexample :
    hasAnyRole ctxC2 ["system_admin"] = false ∧
    hasPermission ctxC2 "" = true ∧
    (getPermissions ctxC2).any (fun p => eqFold p "") = false := by
  decide

/-- C2 amended: on a context built by `WithRoles`/`WithPermissions`,
`HasPermission` returns true iff the code is empty, or the role list
contains `system_admin` case-insensitively (the override, independent of
any registry or assignment state), or the code is a case-insensitive
member of the context's permission list. -/
theorem C2_admin_override_amended (roles perms : List String) (code : String) :
    (hasPermission (withPermissions (withRoles (some emptyCtx) roles) perms)
        code = true) ↔
      (code = "" ∨ roles.any (fun r => eqFold r "system_admin") = true ∨
        perms.any (fun p => eqFold p code) = true) := by
  by_cases hcode : code = ""
  · subst hcode
    simp [hasPermission]
  · have hc : (code == "") = false := by simp [hcode]
    by_cases hadmin : roles.any (fun r => eqFold r "system_admin") = true
    · rw [hasPermission, hc]
      simp only [Bool.false_eq_true, if_false, hasAnyRole_single,
        getRoles_built, hadmin, if_true]
      simp [hcode, hadmin]
    · rw [hasPermission, hc]
      simp only [Bool.false_eq_true, if_false, hasAnyRole_single,
        getRoles_built]
      rw [Bool.not_eq_true] at hadmin
      rw [hadmin]
      simp only [Bool.false_eq_true, if_false, getPermissionSet_built,
        getPermissions_built]
      cases hp : perms with
      | nil =>
        simp [hcode, hadmin]
      | cons q qs =>
        simp only [List.isEmpty_cons, Bool.false_eq_true, if_false]
        rw [← hp, mkPermSet_contains perms code hcode]
        simp [hcode, hadmin, hp]

/-- `withChildren` preserves the hidden flag. -/
theorem MenuNode.withChildren_hidden (n : MenuNode) (c : List MenuNode) :
    (n.withChildren c).hidden = n.hidden := by cases n; rfl

/-- `withChildren` preserves the disabled flag. -/
theorem MenuNode.withChildren_disabled (n : MenuNode) (c : List MenuNode) :
    (n.withChildren c).disabled = n.disabled := by cases n; rfl

/-- `withChildren` installs the given child list. -/
theorem MenuNode.withChildren_children (n : MenuNode) (c : List MenuNode) :
    (n.withChildren c).children = c := by cases n; rfl

/-- `withChildren` preserves the id. -/
theorem MenuNode.withChildren_id (n : MenuNode) (c : List MenuNode) :
    (n.withChildren c).id = n.id := by cases n; rfl

/-- `withChildren` preserves the `anyOf` predicate. -/
theorem MenuNode.withChildren_anyOf (n : MenuNode) (c : List MenuNode) :
    (n.withChildren c).anyOf = n.anyOf := by cases n; rfl

/-- `withChildren` preserves the `allOf` predicate. -/
theorem MenuNode.withChildren_allOf (n : MenuNode) (c : List MenuNode) :
    (n.withChildren c).allOf = n.allOf := by cases n; rfl

/-- Every forest produced by the visibility filter is clean: no surviving
node, at any depth, is hidden or disabled. -/
theorem forestClean_filterMenuForest (reqCtx : Option RequestContext)
    (visited : List Int) (nodes : List MenuNode) :
    forestClean (filterMenuForest reqCtx visited nodes).fst = true := by
  induction visited, nodes using filterMenuForest.induct reqCtx with
  | case1 visited => simp [filterMenuForest, forestClean]
  | case2 visited n rest hmem ih =>
    rw [filterMenuForest, if_pos hmem]
    exact ih
  | case3 visited n rest hmem hdis ih =>
    rw [filterMenuForest, if_neg hmem, if_pos hdis]
    exact ih
  | case4 visited n rest hmem hdis resc ihc ihr =>
    rw [filterMenuForest, if_neg hmem, if_neg hdis]
    simp only []
    have hflags : n.disabled = false ∧ n.hidden = false := by
      simpa using hdis
    by_cases hkeep : (evaluateMenuVisibility
        (n.withChildren
          (filterMenuForest reqCtx (n.id :: visited) n.children).fst) reqCtx ||
        !(filterMenuForest reqCtx (n.id :: visited) n.children).fst.isEmpty) = true
    · rw [if_pos hkeep, forestClean, MenuNode.withChildren_hidden,
        MenuNode.withChildren_disabled, MenuNode.withChildren_children]
      simp [hflags.1, hflags.2, ihc, ihr]
    · rw [if_neg hkeep]
      exact ihr

/-- C9: for every input forest and every request context (including the
nil context), every node of the forest returned by the visibility filter
— at every depth — has `Hidden = false` and `Disabled = false`. -/
theorem C9_filter_output_never_hidden_or_disabled
    (nodes : List MenuNode) (reqCtx : Option RequestContext) :
    forestClean (filterMenuTree nodes reqCtx) = true :=
  forestClean_filterMenuForest reqCtx [] nodes

/-- The source's visibility evaluation coincides with the claim's
formulation. -/
theorem evaluateMenuVisibility_eq_visibleSpec (n : MenuNode)
    (reqCtx : Option RequestContext) :
    evaluateMenuVisibility n reqCtx = visibleSpec n reqCtx := by
  cases reqCtx with
  | none =>
    cases ha : n.anyOf <;> cases hb : n.allOf <;>
      simp [evaluateMenuVisibility, visibleSpec, ha, hb]
  | some c =>
    by_cases hall : n.allOf.all (fun p => hasPermission (some c) p) = true
    · cases ha : n.anyOf with
      | nil => simp [evaluateMenuVisibility, visibleSpec, hall, ha]
      | cons q qs => simp [evaluateMenuVisibility, visibleSpec, hall, ha]
    · have hall' : n.allOf.all (fun p => hasPermission (some c) p) = false := by
        cases h : n.allOf.all (fun p => hasPermission (some c) p)
        · rfl
        · exact absurd h hall
      simp [evaluateMenuVisibility, visibleSpec, hall']

/-- With pairwise-distinct node ids outside the visited set, the
visited-set-threaded filter computes exactly the claim's recursive
filter, and every id it adds to the visited set comes from the forest. -/
theorem filterMenuForest_eq_filterSpec (reqCtx : Option RequestContext)
    (visited : List Int) (nodes : List MenuNode) :
    (forestIds nodes).Nodup → (∀ i ∈ forestIds nodes, i ∉ visited) →
    ((filterMenuForest reqCtx visited nodes).fst = filterSpec reqCtx nodes ∧
      ∀ i ∈ (filterMenuForest reqCtx visited nodes).snd,
        i ∈ visited ∨ i ∈ forestIds nodes) := by
  induction visited, nodes using filterMenuForest.induct reqCtx with
  | case1 visited =>
    intro _ _
    refine ⟨by rw [filterMenuForest, filterSpec], ?_⟩
    intro i hi
    rw [filterMenuForest] at hi
    exact Or.inl hi
  | case2 visited n rest hmem ih =>
    intro hnd hdisj
    exact absurd hmem
      (hdisj n.id (by rw [forestIds]; exact List.mem_cons_self n.id _))
  | case3 visited n rest hmem hdis ih =>
    intro hnd hdisj
    rw [forestIds] at hnd hdisj
    have hndr : (forestIds rest).Nodup :=
      ((List.nodup_append.mp (List.nodup_cons.mp hnd).2).2).1
    have hdisjr : ∀ i ∈ forestIds rest, i ∉ n.id :: visited := by
      intro i hi
      rw [List.mem_cons, not_or]
      refine ⟨?_, hdisj i (by simp [hi])⟩
      intro hin
      exact (List.nodup_cons.mp hnd).1 (hin ▸ by simp [hi])
    obtain ⟨ihf, ihs⟩ := ih hndr hdisjr
    rw [filterMenuForest, if_neg hmem, if_pos hdis]
    constructor
    · rw [ihf, filterSpec, if_pos (by rw [Bool.or_comm]; exact hdis)]
    · intro i hi
      rcases ihs i hi with h | h
      · rcases List.mem_cons.mp h with h | h
        · refine Or.inr ?_
          rw [forestIds, h]
          exact List.mem_cons_self n.id _
        · exact Or.inl h
      · refine Or.inr ?_
        rw [forestIds]
        simp [h]
  | case4 visited n rest hmem hdis resc ihc ihr =>
    intro hnd hdisj
    rw [forestIds] at hnd hdisj
    have hnid : n.id ∉ forestIds n.children ++ forestIds rest :=
      (List.nodup_cons.mp hnd).1
    have happ := List.nodup_append.mp (List.nodup_cons.mp hnd).2
    have hndc : (forestIds n.children).Nodup := happ.1
    have hndr : (forestIds rest).Nodup := happ.2.1
    have hdisjcr : ∀ i ∈ forestIds n.children, i ∉ forestIds rest :=
      fun i hi => happ.2.2 hi
    have hdisjc : ∀ i ∈ forestIds n.children, i ∉ n.id :: visited := by
      intro i hi
      rw [List.mem_cons, not_or]
      refine ⟨?_, hdisj i (by simp [hi])⟩
      intro hin
      exact hnid (hin ▸ by simp [hi])
    obtain ⟨ihcf, ihcs⟩ := ihc hndc hdisjc
    have hdisjr : ∀ i ∈ forestIds rest,
        i ∉ (filterMenuForest reqCtx (n.id :: visited) n.children).snd := by
      intro i hi hmem2
      rcases ihcs i hmem2 with h | h
      · rcases List.mem_cons.mp h with h | h
        · exact hnid (h ▸ by simp [hi])
        · exact hdisj i (by simp [hi]) h
      · exact hdisjcr i h hi
    have hre2 : resc.snd =
        (filterMenuForest reqCtx (n.id :: visited) n.children).snd := rfl
    obtain ⟨ihrf, ihrs⟩ := ihr hndr (by rw [hre2]; exact hdisjr)
    rw [hre2] at ihrf ihrs
    rw [filterMenuForest, if_neg hmem, if_neg hdis]
    simp only []
    have hspec : filterSpec reqCtx (n :: rest) =
        (if (visibleSpec n reqCtx ||
            !(filterSpec reqCtx n.children).isEmpty) = true then
          n.withChildren (filterSpec reqCtx n.children) :: filterSpec reqCtx rest
        else filterSpec reqCtx rest) := by
      rw [filterSpec,
        if_neg (show ¬(n.hidden || n.disabled) = true by
          rw [Bool.or_comm]; exact hdis)]
    constructor
    · rw [hspec, ihrf, ihcf, evaluateMenuVisibility_eq_visibleSpec]
      have hvs : visibleSpec (n.withChildren (filterSpec reqCtx n.children))
          reqCtx = visibleSpec n reqCtx := by
        cases reqCtx <;>
          simp [visibleSpec, MenuNode.withChildren_anyOf,
            MenuNode.withChildren_allOf]
      rw [hvs]
    · intro i hi
      rcases ihrs i hi with h | h
      · rcases ihcs i h with h2 | h2
        · rcases List.mem_cons.mp h2 with h3 | h3
          · refine Or.inr ?_
            rw [forestIds, h3]
            exact List.mem_cons_self n.id _
          · exact Or.inl h3
        · refine Or.inr ?_
          rw [forestIds]
          simp [h2]
      · refine Or.inr ?_
        rw [forestIds]
        simp [h]

/-- C4: on an assembled forest (pairwise-distinct node ids), the
visibility filter removes hidden/disabled nodes outright and otherwise
keeps a node iff it is visible — every `allOf` code held and (`anyOf`
empty or one `anyOf` code held); only predicate-free nodes with no
principal context — or at least one of its (recursively filtered)
children survived, children being decided before the parent. -/
theorem C4_visibility_filter_matches_spec (nodes : List MenuNode)
    (reqCtx : Option RequestContext) (h : (forestIds nodes).Nodup) :
    filterMenuTree nodes reqCtx = filterSpec reqCtx nodes :=
  (filterMenuForest_eq_filterSpec reqCtx [] nodes h
    (fun i _ => List.not_mem_nil i)).1

/-- Witness for C4 on the claim's own example: root requiring `x:x`
(not held) with a child whose `anyOf` contains the held code `a:a` —
the root is retained because the child survives; with no principal
context, nothing is shown. -/
theorem C4_visibility_filter_matches_spec_witness :
    (forestIds exForest).Nodup ∧
    filterMenuTree exForest exCtx = filterSpec exCtx exForest ∧
    filterMenuTree exForest none = filterSpec none exForest ∧
    filterSpec exCtx exForest =
      [exRoot.withChildren [exChild.withChildren []]] ∧
    filterSpec none exForest = [] := by
  have hids : forestIds exForest = [1, 2] := by
    simp [forestIds, exForest, exRoot, exChild, MenuNode.id,
      MenuNode.children]
  have hnd : (forestIds exForest).Nodup := by
    rw [hids]
    decide
  refine ⟨hnd, C4_visibility_filter_matches_spec exForest exCtx hnd,
    C4_visibility_filter_matches_spec exForest none hnd, ?_, ?_⟩
  · simp [filterSpec, visibleSpec, exForest, exRoot, exChild, exCtx,
      hasPermission, hasAnyRole, getPermissionSet, withPermissions,
      withRoles, emptyCtx, mkPermSet, lowerStr, eqFold, getRoles,
      MenuNode.withChildren, MenuNode.anyOf, MenuNode.allOf,
      MenuNode.hidden, MenuNode.disabled, MenuNode.children]
  · simp [filterSpec, visibleSpec, exForest, exRoot, exChild,
      MenuNode.anyOf, MenuNode.allOf, MenuNode.hidden,
      MenuNode.disabled, MenuNode.children]

/-- Membership in the permission accumulator: the inner loop adds
exactly the trimmed, non-empty codes of the processed list. -/
theorem mem_addRolePerms (ps : List String) (acc : List String) (x : String) :
    x ∈ addRolePerms ps acc ↔
      x ∈ acc ∨ ∃ p ∈ ps, trimStr p = x ∧ ¬trimStr p = "" := by
  induction ps generalizing acc with
  | nil => simp [addRolePerms]
  | cons p ps ih =>
    rw [addRolePerms]
    by_cases h : trimStr p = "" ∨ trimStr p ∈ acc
    · rw [if_pos h]
      rw [ih]
      constructor
      · rintro (hx | ⟨q, hq, hqx, hqe⟩)
        · exact Or.inl hx
        · exact Or.inr ⟨q, List.mem_cons_of_mem p hq, hqx, hqe⟩
      · rintro (hx | ⟨q, hq, hqx, hqe⟩)
        · exact Or.inl hx
        · rcases List.mem_cons.mp hq with rfl | hq2
          · rcases h with h | h
            · exact absurd h hqe
            · exact Or.inl (hqx ▸ h)
          · exact Or.inr ⟨q, hq2, hqx, hqe⟩
    · rw [if_neg h]
      rw [not_or] at h
      rw [ih]
      simp only [List.mem_append, List.mem_singleton, List.mem_cons]
      constructor
      · rintro ((hx | hx) | ⟨q, hq, hqx, hqe⟩)
        · exact Or.inl hx
        · rcases hx with hx | hx
          · exact Or.inr ⟨p, Or.inl rfl, hx.symm, h.1⟩
          · exact absurd hx (List.not_mem_nil x)
        · exact Or.inr ⟨q, Or.inr hq, hqx, hqe⟩
      · rintro (hx | ⟨q, rfl | hq, hqx, hqe⟩)
        · exact Or.inl (Or.inl hx)
        · exact Or.inl (Or.inr (Or.inl hqx.symm))
        · exact Or.inr ⟨q, hq, hqx, hqe⟩

/-- The permission accumulator never introduces duplicates. -/
theorem nodup_addRolePerms (ps : List String) (acc : List String)
    (h : acc.Nodup) : (addRolePerms ps acc).Nodup := by
  induction ps generalizing acc with
  | nil => simpa [addRolePerms] using h
  | cons p ps ih =>
    rw [addRolePerms]
    by_cases hc : trimStr p = "" ∨ trimStr p ∈ acc
    · rw [if_pos hc]
      exact ih acc h
    · rw [if_neg hc]
      rw [not_or] at hc
      refine ih (acc ++ [trimStr p]) ?_
      simp [List.nodup_append, h, List.disjoint_singleton, hc.2]

/-- Membership in the role-name accumulator of the resolution loop:
exactly the prior names plus the trimmed, non-empty names of active
roles. -/
theorem mem_resolveLoop_names (rs : List (Option RoleRec))
    (names acc : List String) (x : String) :
    x ∈ (resolveLoop rs names acc).1 ↔
      x ∈ names ∨ ∃ r, some r ∈ rs ∧ r.status = "active" ∧
        trimStr r.name = x ∧ ¬trimStr r.name = "" := by
  induction rs generalizing names acc with
  | nil => simp [resolveLoop]
  | cons o rest ih =>
    cases o with
    | none =>
      rw [resolveLoop, ih]
      simp only [List.mem_cons]
      constructor
      · rintro (hx | ⟨r, hr, hrest⟩)
        · exact Or.inl hx
        · exact Or.inr ⟨r, Or.inr hr, hrest⟩
      · rintro (hx | ⟨r, hor | hr, hrest⟩)
        · exact Or.inl hx
        · cases hor
        · exact Or.inr ⟨r, hr, hrest⟩
    | some role =>
      rw [resolveLoop]
      by_cases hs : ¬role.status = "active"
      · rw [if_pos hs, ih]
        simp only [List.mem_cons]
        constructor
        · rintro (hx | ⟨r, hr, hrest⟩)
          · exact Or.inl hx
          · exact Or.inr ⟨r, Or.inr hr, hrest⟩
        · rintro (hx | ⟨r, hor | hr, hact, hrest⟩)
          · exact Or.inl hx
          · cases hor
            exact absurd hact hs
          · exact Or.inr ⟨r, hr, hact, hrest⟩
      · rw [if_neg hs]
        simp only []
        have hact : role.status = "active" := not_not.mp hs
        by_cases hn : ¬trimStr role.name = "" ∧ trimStr role.name ∉ names
        · rw [if_pos hn, ih]
          simp only [List.mem_append, List.mem_singleton, List.mem_cons]
          constructor
          · rintro ((hx | hx) | ⟨r, hr, hrest⟩)
            · exact Or.inl hx
            · rcases hx with hx | hx
              · exact Or.inr ⟨role, Or.inl rfl, hact, hx.symm, hn.1⟩
              · exact absurd hx (List.not_mem_nil x)
            · exact Or.inr ⟨r, Or.inr hr, hrest⟩
          · rintro (hx | ⟨r, hor | hr, hract, hx1, hx2⟩)
            · exact Or.inl (Or.inl hx)
            · cases hor
              exact Or.inl (Or.inr (Or.inl hx1.symm))
            · exact Or.inr ⟨r, hr, hract, hx1, hx2⟩
        · rw [if_neg hn, ih]
          rw [not_and_or, not_not] at hn
          simp only [List.mem_cons]
          constructor
          · rintro (hx | ⟨r, hr, hrest⟩)
            · exact Or.inl hx
            · exact Or.inr ⟨r, Or.inr hr, hrest⟩
          · rintro (hx | ⟨r, hor | hr, hract, hx1, hx2⟩)
            · exact Or.inl hx
            · cases hor
              rcases hn with hn | hn
              · exact absurd hn hx2
              · exact Or.inl (hx1 ▸ not_not.mp hn)
            · exact Or.inr ⟨r, hr, hract, hx1, hx2⟩

/-- Membership in the permission accumulator of the resolution loop:
exactly the prior codes plus the trimmed, non-empty codes of active
roles. -/
theorem mem_resolveLoop_perms (rs : List (Option RoleRec))
    (names acc : List String) (x : String) :
    x ∈ (resolveLoop rs names acc).2 ↔
      x ∈ acc ∨ ∃ r, some r ∈ rs ∧ r.status = "active" ∧
        ∃ p ∈ r.permissions, trimStr p = x ∧ ¬trimStr p = "" := by
  induction rs generalizing names acc with
  | nil => simp [resolveLoop]
  | cons o rest ih =>
    cases o with
    | none =>
      rw [resolveLoop, ih]
      simp only [List.mem_cons]
      constructor
      · rintro (hx | ⟨r, hr, hrest⟩)
        · exact Or.inl hx
        · exact Or.inr ⟨r, Or.inr hr, hrest⟩
      · rintro (hx | ⟨r, hor | hr, hrest⟩)
        · exact Or.inl hx
        · cases hor
        · exact Or.inr ⟨r, hr, hrest⟩
    | some role =>
      rw [resolveLoop]
      by_cases hs : ¬role.status = "active"
      · rw [if_pos hs, ih]
        simp only [List.mem_cons]
        constructor
        · rintro (hx | ⟨r, hr, hrest⟩)
          · exact Or.inl hx
          · exact Or.inr ⟨r, Or.inr hr, hrest⟩
        · rintro (hx | ⟨r, hor | hr, hact, hrest⟩)
          · exact Or.inl hx
          · cases hor
            exact absurd hact hs
          · exact Or.inr ⟨r, hr, hact, hrest⟩
      · rw [if_neg hs]
        have hact : role.status = "active" := not_not.mp hs
        rw [ih, mem_addRolePerms]
        simp only [List.mem_cons]
        constructor
        · rintro ((hx | ⟨p, hp, hpx, hpe⟩) | ⟨r, hr, hrest⟩)
          · exact Or.inl hx
          · exact Or.inr ⟨role, Or.inl rfl, hact, p, hp, hpx, hpe⟩
          · exact Or.inr ⟨r, Or.inr hr, hrest⟩
        · rintro (hx | ⟨r, hor | hr, hract, hrest⟩)
          · exact Or.inl (Or.inl hx)
          · cases hor
            exact Or.inl (Or.inr hrest)
          · exact Or.inr ⟨r, hr, hract, hrest⟩

/-- The role-name accumulator of the resolution loop stays
duplicate-free. -/
theorem nodup_resolveLoop_names (rs : List (Option RoleRec))
    (names acc : List String) (h : names.Nodup) :
    (resolveLoop rs names acc).1.Nodup := by
  induction rs generalizing names acc with
  | nil => simpa [resolveLoop] using h
  | cons o rest ih =>
    cases o with
    | none => rw [resolveLoop]; exact ih names acc h
    | some role =>
      rw [resolveLoop]
      by_cases hs : ¬role.status = "active"
      · rw [if_pos hs]; exact ih names acc h
      · rw [if_neg hs]
        simp only []
        by_cases hn : ¬trimStr role.name = "" ∧ trimStr role.name ∉ names
        · rw [if_pos hn]
          refine ih _ _ ?_
          simp [List.nodup_append, h, List.disjoint_singleton, hn.2]
        · rw [if_neg hn]
          exact ih names _ h

/-- The permission accumulator of the resolution loop stays
duplicate-free. -/
theorem nodup_resolveLoop_perms (rs : List (Option RoleRec))
    (names acc : List String) (h : acc.Nodup) :
    (resolveLoop rs names acc).2.Nodup := by
  induction rs generalizing names acc with
  | nil => simpa [resolveLoop] using h
  | cons o rest ih =>
    cases o with
    | none => rw [resolveLoop]; exact ih names acc h
    | some role =>
      rw [resolveLoop]
      by_cases hs : ¬role.status = "active"
      · rw [if_pos hs]; exact ih names acc h
      · rw [if_neg hs]
        exact ih _ _ (nodup_addRolePerms role.permissions acc h)

/-- Membership in the role join: a role row reaches the resolver iff it
is assigned to the user and not soft-deleted. -/
theorem mem_findRolesByUserID (db : IamDb) (userID : Int) (r : RoleRec) :
    r ∈ findRolesByUserID db userID ↔
      r ∈ db.roles ∧ (userID, r.id) ∈ db.userRoles ∧ r.deleted = false := by
  simp only [findRolesByUserID, List.mem_flatMap, List.mem_filter,
    Bool.and_eq_true, beq_iff_eq, Bool.not_eq_true']
  constructor
  · rintro ⟨⟨u, rid⟩, ⟨hur, hu⟩, hr, hid, hdel⟩
    refine ⟨hr, ?_, hdel⟩
    simp only at hu hid
    rw [← hu, hid]
    exact hur
  · rintro ⟨hr, hur, hdel⟩
    exact ⟨(userID, r.id), ⟨hur, rfl⟩, hr, rfl, hdel⟩

/-- The modelled `sort.Strings` sorts. -/
theorem sortStrings_sorted (l : List String) :
    (sortStrings l).Sorted strLe :=
  List.sorted_insertionSort strLe l

/-- The modelled `sort.Strings` permutes its input. -/
theorem sortStrings_perm (l : List String) : (sortStrings l).Perm l :=
  List.perm_insertionSort strLe l

/-- Two sorted duplicate-free string lists with the same members are
equal. -/
theorem sorted_nodup_ext {l₁ l₂ : List String}
    (s₁ : l₁.Sorted strLe) (s₂ : l₂.Sorted strLe)
    (d₁ : l₁.Nodup) (d₂ : l₂.Nodup) (hm : ∀ x, x ∈ l₁ ↔ x ∈ l₂) :
    l₁ = l₂ :=
  List.eq_of_perm_of_sorted ((List.perm_ext_iff_of_nodup d₁ d₂).mpr hm) s₁ s₂

/-- The first component of the resolution is the sorted name
accumulator. -/
theorem resolveEffective_fst (db : IamDb) (userID : Int) :
    (resolveEffectiveRolesAndPermissions db userID).1 =
      sortStrings
        (resolveLoop ((findRolesByUserID db userID).map some) [] []).1 := rfl

/-- The second component of the resolution is the sorted permission
accumulator. -/
theorem resolveEffective_snd (db : IamDb) (userID : Int) :
    (resolveEffectiveRolesAndPermissions db userID).2 =
      sortStrings
        (resolveLoop ((findRolesByUserID db userID).map some) [] []).2 := rfl

/-- Role-name membership in the resolved output, for a database whose
role names and codes are trimmed and non-empty: exactly the names of
assigned, active, non-soft-deleted roles. -/
theorem resolveEffective_names_mem (db : IamDb) (userID : Int)
    (hclean : ∀ r ∈ db.roles, trimStr r.name = r.name ∧ ¬r.name = "" ∧
      ∀ p ∈ r.permissions, trimStr p = p ∧ ¬p = "") (x : String) :
    x ∈ (resolveEffectiveRolesAndPermissions db userID).1 ↔
      ∃ r, isEffectiveRoleOf db userID r ∧ r.name = x := by
  rw [resolveEffective_fst, (sortStrings_perm _).mem_iff,
    mem_resolveLoop_names]
  simp only [List.not_mem_nil, false_or, List.mem_map,
    Option.some.injEq]
  constructor
  · rintro ⟨_, ⟨r, hr, rfl⟩, hact, htrim, hne⟩
    obtain ⟨hmem, hassign, hdel⟩ := (mem_findRolesByUserID db userID r).mp hr
    obtain ⟨ht, _, _⟩ := hclean r hmem
    exact ⟨r, ⟨hmem, hassign, hdel, hact⟩, by rw [← ht]; exact htrim⟩
  · rintro ⟨r, ⟨hmem, hassign, hdel, hact⟩, hname⟩
    obtain ⟨ht, hne, _⟩ := hclean r hmem
    refine ⟨r, ⟨r, (mem_findRolesByUserID db userID r).mpr
      ⟨hmem, hassign, hdel⟩, rfl⟩, hact, by rw [ht]; exact hname, ?_⟩
    rw [ht]
    exact hne

/-- Permission membership in the resolved output, for a clean database:
exactly the codes of assigned, active, non-soft-deleted roles. -/
theorem resolveEffective_perms_mem (db : IamDb) (userID : Int)
    (hclean : ∀ r ∈ db.roles, trimStr r.name = r.name ∧ ¬r.name = "" ∧
      ∀ p ∈ r.permissions, trimStr p = p ∧ ¬p = "") (x : String) :
    x ∈ (resolveEffectiveRolesAndPermissions db userID).2 ↔
      ∃ r, isEffectiveRoleOf db userID r ∧ x ∈ r.permissions := by
  rw [resolveEffective_snd, (sortStrings_perm _).mem_iff,
    mem_resolveLoop_perms]
  simp only [List.not_mem_nil, false_or, List.mem_map,
    Option.some.injEq]
  constructor
  · rintro ⟨_, ⟨r, hr, rfl⟩, hact, p, hp, htrim, hne⟩
    obtain ⟨hmem, hassign, hdel⟩ := (mem_findRolesByUserID db userID r).mp hr
    obtain ⟨_, _, hps⟩ := hclean r hmem
    obtain ⟨hpt, _⟩ := hps p hp
    refine ⟨r, ⟨hmem, hassign, hdel, hact⟩, ?_⟩
    rw [← htrim, hpt]
    exact hp
  · rintro ⟨r, ⟨hmem, hassign, hdel, hact⟩, hx⟩
    obtain ⟨_, _, hps⟩ := hclean r hmem
    obtain ⟨hpt, hpe⟩ := hps x hx
    exact ⟨r, ⟨r, (mem_findRolesByUserID db userID r).mpr
      ⟨hmem, hassign, hdel⟩, rfl⟩, hact, x, hx, hpt, by rw [hpt]; exact hpe⟩

/-- C3: for a database whose role names and permission codes are trimmed
and non-empty, effective-permission resolution returns exactly the
deduplicated union of names and codes of the principal's assigned roles
that are active and not soft-deleted — inactive or soft-deleted roles
contribute nothing — with both lists sorted lexicographically and free
of duplicates, and the output is invariant under any reordering of the
stored role rows and assignment rows. -/
theorem C3_effective_resolution (db : IamDb) (userID : Int)
    (hclean : ∀ r ∈ db.roles, trimStr r.name = r.name ∧ ¬r.name = "" ∧
      ∀ p ∈ r.permissions, trimStr p = p ∧ ¬p = "") :
    ((resolveEffectiveRolesAndPermissions db userID).1.Sorted strLe ∧
      (resolveEffectiveRolesAndPermissions db userID).1.Nodup ∧
      (∀ x, x ∈ (resolveEffectiveRolesAndPermissions db userID).1 ↔
        ∃ r, isEffectiveRoleOf db userID r ∧ r.name = x)) ∧
    ((resolveEffectiveRolesAndPermissions db userID).2.Sorted strLe ∧
      (resolveEffectiveRolesAndPermissions db userID).2.Nodup ∧
      (∀ x, x ∈ (resolveEffectiveRolesAndPermissions db userID).2 ↔
        ∃ r, isEffectiveRoleOf db userID r ∧ x ∈ r.permissions)) ∧
    (∀ db2 : IamDb, db2.roles.Perm db.roles →
      db2.userRoles.Perm db.userRoles →
      resolveEffectiveRolesAndPermissions db2 userID =
        resolveEffectiveRolesAndPermissions db userID) := by
  have hnodup1 : (resolveEffectiveRolesAndPermissions db userID).1.Nodup := by
    rw [resolveEffective_fst]
    exact (sortStrings_perm _).symm.nodup
      (nodup_resolveLoop_names _ [] [] List.nodup_nil)
  have hnodup2 : (resolveEffectiveRolesAndPermissions db userID).2.Nodup := by
    rw [resolveEffective_snd]
    exact (sortStrings_perm _).symm.nodup
      (nodup_resolveLoop_perms _ [] [] List.nodup_nil)
  refine ⟨⟨by rw [resolveEffective_fst]; exact sortStrings_sorted _,
      hnodup1, resolveEffective_names_mem db userID hclean⟩,
    ⟨by rw [resolveEffective_snd]; exact sortStrings_sorted _,
      hnodup2, resolveEffective_perms_mem db userID hclean⟩, ?_⟩
  intro db2 hroles hassign
  have hclean2 : ∀ r ∈ db2.roles, trimStr r.name = r.name ∧ ¬r.name = "" ∧
      ∀ p ∈ r.permissions, trimStr p = p ∧ ¬p = "" :=
    fun r hr => hclean r (hroles.mem_iff.mp hr)
  have heff : ∀ r, isEffectiveRoleOf db2 userID r ↔
      isEffectiveRoleOf db userID r := by
    intro r
    unfold isEffectiveRoleOf
    rw [hroles.mem_iff, hassign.mem_iff]
  have h1 : (resolveEffectiveRolesAndPermissions db2 userID).1 =
      (resolveEffectiveRolesAndPermissions db userID).1 := by
    refine sorted_nodup_ext ?_ ?_ ?_ hnodup1 ?_
    · rw [resolveEffective_fst]; exact sortStrings_sorted _
    · rw [resolveEffective_fst]; exact sortStrings_sorted _
    · rw [resolveEffective_fst]
      exact (sortStrings_perm _).symm.nodup
        (nodup_resolveLoop_names _ [] [] List.nodup_nil)
    · intro x
      rw [resolveEffective_names_mem db2 userID hclean2 x,
        resolveEffective_names_mem db userID hclean x]
      constructor
      · rintro ⟨r, hr, hx⟩
        exact ⟨r, (heff r).mp hr, hx⟩
      · rintro ⟨r, hr, hx⟩
        exact ⟨r, (heff r).mpr hr, hx⟩
  have h2 : (resolveEffectiveRolesAndPermissions db2 userID).2 =
      (resolveEffectiveRolesAndPermissions db userID).2 := by
    refine sorted_nodup_ext ?_ ?_ ?_ hnodup2 ?_
    · rw [resolveEffective_snd]; exact sortStrings_sorted _
    · rw [resolveEffective_snd]; exact sortStrings_sorted _
    · rw [resolveEffective_snd]
      exact (sortStrings_perm _).symm.nodup
        (nodup_resolveLoop_perms _ [] [] List.nodup_nil)
    · intro x
      rw [resolveEffective_perms_mem db2 userID hclean2 x,
        resolveEffective_perms_mem db userID hclean x]
      constructor
      · rintro ⟨r, hr, hx⟩
        exact ⟨r, (heff r).mp hr, hx⟩
      · rintro ⟨r, hr, hx⟩
        exact ⟨r, (heff r).mpr hr, hx⟩
  exact Prod.ext h1 h2

/-- Witness for C3, mirroring the repository's snapshot test: one
active role, one deactivated role, one soft-deleted role and a second
active role sharing a code — the output is the sorted, deduplicated
union of the two active roles' names and codes only. -/
theorem C3_effective_resolution_witness :
    (∀ r ∈ c3Db.roles, trimStr r.name = r.name ∧ ¬r.name = "" ∧
      ∀ p ∈ r.permissions, trimStr p = p ∧ ¬p = "") ∧
    resolveEffectiveRolesAndPermissions c3Db 1 =
      (["role_active", "role_b"],
       ["perm:active", "perm:alpha", "perm:zeta"]) ∧
    "perm:active" ∈ (resolveEffectiveRolesAndPermissions c3Db 1).2 ∧
    ¬"perm:inactive" ∈ (resolveEffectiveRolesAndPermissions c3Db 1).2 ∧
    ¬"perm:deleted" ∈ (resolveEffectiveRolesAndPermissions c3Db 1).2 := by
  have hclean : ∀ r ∈ c3Db.roles, trimStr r.name = r.name ∧ ¬r.name = "" ∧
      ∀ p ∈ r.permissions, trimStr p = p ∧ ¬p = "" := by decide
  refine ⟨hclean, by decide, ?_, by decide, by decide⟩
  exact ((C3_effective_resolution c3Db 1 hclean).2.1.2.2 "perm:active").mpr
    ⟨⟨22, "role_active", "active", ["perm:active", "perm:zeta"], false⟩,
      by unfold isEffectiveRoleOf; decide, by decide⟩
